import Mathlib

/-!
A shallow embedding in Lean 4 of the core of the dinghy activity-digest
program (files `dinghy/helpers.py`, `dinghy/graphql_helpers.py`,
`dinghy/digest.py`), together with theorems settling the specification
claims about it.

Conventions of the embedding:
* Python dicts appear either as records (`NodeData`, `Config`, ...) or as
  insertion-ordered association lists with Python-dict semantics
  (assignment replaces in place, new keys append at the end).
* In-place mutation of the Python code is rendered by explicit value passing;
  where aliasing itself is the claim (the `variables` dict of
  `GraphqlHelper.nodes`), a small explicit heap of dicts is used.
* Fallible Python code (exceptions) returns `Option`/`Except`.
-/

namespace Dinghy

/-! ## helpers.py -/

/-- A JSON-like value, the shape of GraphQL response data.
`prim` stands for any non-dict, non-list leaf (string, number, bool, null). -/
inductive JValue where
  | obj (fields : List (String × JValue))
  | arr (elems : List JValue)
  | prim (s : String)

/-- Whether the dict `d` has the key `key` (`key in d` in Python). -/
def hasKey (d : List (String × JValue)) (key : String) : Bool :=
  d.any (fun kv => kv.1 == key)

mutual

/-- `helpers.find_dict_with_key`: return the subdict of `d` that has `key`.
Checks `d` itself first, then recurses depth-first through the values of `d`
that are dicts (values that are lists are *not* descended into). -/
def find_dict_with_key (d : List (String × JValue)) (key : String) :
    Option (List (String × JValue)) :=
  if hasKey d key then some d
  else findInValues d key

/-- The `for dd in d.values()` loop of `find_dict_with_key`: try each value
in order, recursing only into values that are dicts. -/
def findInValues (d : List (String × JValue)) (key : String) :
    Option (List (String × JValue)) :=
  match d with
  | [] => none
  | (_, JValue.obj dd) :: rest =>
    match find_dict_with_key dd key with
    | some sd => some sd
    | none => findInValues rest key
  | _ :: rest => findInValues rest key

end

mutual

/-- Depth-first enumeration (in the traversal order of `find_dict_with_key`)
of all dicts carrying `key` that are reachable from `d` through dict values
only. -/
def dictsWithKey (d : List (String × JValue)) (key : String) :
    List (List (String × JValue)) :=
  (if hasKey d key then [d] else []) ++ dictsWithKeyValues d key

/-- Helper of `dictsWithKey`: enumerate over the values of `d`. -/
def dictsWithKeyValues (d : List (String × JValue)) (key : String) :
    List (List (String × JValue)) :=
  match d with
  | [] => []
  | (_, JValue.obj dd) :: rest => dictsWithKey dd key ++ dictsWithKeyValues rest key
  | _ :: rest => dictsWithKeyValues rest key

end

mutual

/-- Specification-side predicate (from the claim wording): does a dict
carrying `key` exist *anywhere* in the value, at any nesting, including
dicts nested inside arrays? -/
def hasDictWithKeyAnywhere (v : JValue) (key : String) : Bool :=
  match v with
  | JValue.obj fields => hasKey fields key || anyFieldHasDict fields key
  | JValue.arr elems => anyElemHasDict elems key
  | JValue.prim _ => false

/-- `hasDictWithKeyAnywhere` over the values of a dict. -/
def anyFieldHasDict (d : List (String × JValue)) (key : String) : Bool :=
  match d with
  | [] => false
  | (_, v) :: rest => hasDictWithKeyAnywhere v key || anyFieldHasDict rest key

/-- `hasDictWithKeyAnywhere` over the elements of an array. -/
def anyElemHasDict (es : List JValue) (key : String) : Bool :=
  match es with
  | [] => false
  | v :: rest => hasDictWithKeyAnywhere v key || anyElemHasDict rest key

end

/-! ### parse_timedelta / parse_since -/

/-- One matched numeric group of the `parse_timedelta` regex: the digit/dot
string captured for a unit, when the unit was present. -/
structure TdMatch where
  weeks : Option String
  days : Option String
  hours : Option String
  minutes : Option String
  seconds : Option String
  deriving Repr, DecidableEq

/-- A character allowed in a numeric group of the regex: `[.\d]`. -/
def isNumChar (c : Char) : Bool := c.isDigit || c == '.'

/-- `timedelta_str.replace(" ", "")`: remove every space. -/
def removeSpaces (cs : List Char) : List Char := cs.filter (fun c => c != ' ')

/-- Match a maximal nonempty run of `[.\d]` characters. -/
def matchNum (cs : List Char) : Option (String × List Char) :=
  let num := cs.takeWhile isNumChar
  if num.isEmpty then none else some (String.mk num, cs.dropWhile isNumChar)

/-- Try unit-suffix alternatives in order (longest first, emulating the
greedy nested optional groups of the regex); consume the first that is a
prefix of the input. -/
def matchSuffix (alts : List String) (cs : List Char) : Option (List Char) :=
  match alts with
  | [] => none
  | a :: rest =>
    if a.toList.isPrefixOf cs then some (cs.drop a.length)
    else matchSuffix rest cs

/-- Match one optional `((number)(unit-suffix))?` group of the regex.
If the group cannot match here, it matches empty (the group is optional). -/
def matchPart (alts : List String) (cs : List Char) : Option String × List Char :=
  match matchNum cs with
  | none => (none, cs)
  | some (num, rest) =>
    match matchSuffix alts rest with
    | some rest2 => (some num, rest2)
    | none => (none, cs)

/-- The anchored regex of `helpers.parse_timedelta`, applied to the input
with spaces already removed: five optional `number+unit` groups, in the
fixed order weeks, days, hours, minutes, seconds; the whole string must be
consumed. -/
def tdRegexMatch (cs : List Char) : Option TdMatch :=
  let (w, cs1) := matchPart ["weeks", "week", "w"] cs
  let (d, cs2) := matchPart ["days", "day", "d"] cs1
  let (h, cs3) := matchPart ["hours", "hour", "h"] cs2
  let (m, cs4) := matchPart ["minutes", "minute", "min", "m"] cs3
  let (s, cs5) := matchPart ["seconds", "second", "sec", "s"] cs4
  if cs5.isEmpty then some (TdMatch.mk w d h m s) else none

/-- `helpers.parse_timedelta`: parse a duration string ("2h13m") into its
matched groups, or `none` if it cannot be parsed.  Spaces are removed before
matching; the empty string yields `none` even though the regex matches it.
(The conversion of each matched group to a float and the construction of the
`datetime.timedelta` are abstracted: no claim depends on the numeric value,
only on match success/failure and on which groups matched.) -/
def parse_timedelta (timedelta_str : String) : Option TdMatch :=
  let parts := tdRegexMatch (removeSpaces timedelta_str.toList)
  if timedelta_str = "" then none else parts

/-- A calendar date, the result of the (date-only) `fromisoformat` model. -/
structure IsoDate where
  year : Nat
  month : Nat
  day : Nat
  deriving Repr, DecidableEq

/-- Days in a month, with Gregorian leap years. -/
def daysInMonth (y m : Nat) : Nat :=
  if m = 1 ∨ m = 3 ∨ m = 5 ∨ m = 7 ∨ m = 8 ∨ m = 10 ∨ m = 12 then 31
  else if m = 4 ∨ m = 6 ∨ m = 9 ∨ m = 11 then 30
  else if (y % 4 = 0 ∧ y % 100 ≠ 0) ∨ y % 400 = 0 then 29
  else 28

/-- The value of a two-digit character pair. -/
def twoDigits (a b : Char) : Nat := (a.toNat - 48) * 10 + (b.toNat - 48)

/-- Model of `datetime.datetime.fromisoformat` restricted to date-only
strings `YYYY-MM-DD` (the only shape the claims exercise); any other shape
is `none` (a `ValueError`). -/
def fromisoformat (s : String) : Option IsoDate :=
  match s.toList with
  | [y1, y2, y3, y4, '-', m1, m2, '-', d1, d2] =>
    if (y1.isDigit && y2.isDigit && y3.isDigit && y4.isDigit &&
        m1.isDigit && m2.isDigit && d1.isDigit && d2.isDigit) then
      let y := twoDigits y1 y2 * 100 + twoDigits y3 y4
      let m := twoDigits m1 m2
      let d := twoDigits d1 d2
      if 1 ≤ y ∧ 1 ≤ m ∧ m ≤ 12 ∧ 1 ≤ d ∧ d ≤ daysInMonth y m then
        some (IsoDate.mk y m d)
      else none
    else none
  | _ => none

/-- The effective cutoff datetime computed from a `since` specification.
`farPast` is `datetime.datetime(year=1980, month=1, day=1)`; `nowMinus d`
is `datetime.datetime.now() - timedelta(d)`; `absolute dt` is the parsed
timestamp used as-is. -/
inductive SinceDate where
  | farPast
  | nowMinus (d : TdMatch)
  | absolute (dt : IsoDate)
  deriving Repr, DecidableEq

/-- `helpers.parse_since`: "forever" gives a fixed far-past date; a parsable
time delta gives now-minus-delta; otherwise an ISO timestamp is used as-is;
anything else is a fatal `DinghyError` naming the offending value. -/
def parse_since (since : String) : Except String SinceDate :=
  if since = "forever" then Except.ok SinceDate.farPast
  else
    match parse_timedelta since with
    | some delta => Except.ok (SinceDate.nowMinus delta)
    | none =>
      match fromisoformat since with
      | some dt => Except.ok (SinceDate.absolute dt)
      | none => Except.error ("Cannot parse since value: " ++ since)

/-- The `since` handling of `digest.make_digest` (digest.py lines 497-502):
`"forever"` gives `datetime(1980, 1, 1)`; otherwise the code computes
`datetime.datetime.now() - parse_timedelta(since)` directly.  When
`parse_timedelta` returns `None` this subtraction raises an uncaught
`TypeError`, modelled as `none`. -/
def makeDigestSinceDate (since : String) : Option SinceDate :=
  if since = "forever" then some SinceDate.farPast
  else (parse_timedelta since).map SinceDate.nowMinus

/-! ## graphql_helpers.py -/

namespace GraphqlHelper

/-- The part of one upstream response page that `nodes()` consumes: the
container's node list and its `pageInfo` (`hasNextPage`, `endCursor`). -/
structure Page (α : Type) where
  nodes : List α
  hasNextPage : Bool
  endCursor : String
  deriving Repr, DecidableEq

/-- Apply the optional caller-supplied stop predicate `donefn` to a page's
raw node list (`donefn is not None and donefn(fetched["nodes"])`). -/
def donefnFires {α : Type} (donefn : Option (List α → Bool)) (ns : List α) : Bool :=
  match donefn with
  | none => false
  | some f => f ns

/-- The loop termination test of `nodes()` on one page, in source order:
stop when `hasNextPage` is false, or when the stop predicate fires. -/
def pageStops {α : Type} (donefn : Option (List α → Bool)) (p : Page α) : Bool :=
  !p.hasNextPage || donefnFires donefn p.nodes

/-- The pagination loop of `GraphqlHelper.nodes` (graphql_helpers.py lines
172-185), run against the sequence of pages the upstream would serve.
Each iteration consumes one page (one `execute` call), accumulates its
node list, and stops after the first page with no next page or on which
`donefn` fires.  Returns the accumulated nodes and the number of pages
fetched; `none` models the upstream running out of pages while the loop
still wants another one (which cannot happen against the real API). -/
def nodesLoop {α : Type} (donefn : Option (List α → Bool)) :
    List (Page α) → Option (List α × Nat)
  | [] => none
  | p :: rest =>
    if pageStops donefn p then some (p.nodes, 1)
    else
      match nodesLoop donefn rest with
      | none => none
      | some (ns, k) => some (p.nodes ++ ns, k + 1)

/-! ### _raw_execute : HTTP-level retry (digest claims C5) -/

/-- One HTTP response as `_raw_execute` observes it: a status code and,
for successful responses, the JSON body. -/
structure HttpResponse where
  status : Nat
  body : String
  deriving Repr, DecidableEq

/-- `NUM_TRIES` of `_raw_execute`. -/
def NUM_TRIES : Nat := 200

/-- `PAUSE` of `_raw_execute`, seconds slept between retried attempts. -/
def PAUSE : Nat := 5

/-- The outcome of `_raw_execute`: the returned JSON body, the fatal
credential error raised on HTTP 401, or the `raise_for_status` HTTP error.
Each carries the number of requests issued and the total seconds waited. -/
inductive RawResult where
  | success (body : String) (requests : Nat) (waited : Nat)
  | credError (requests : Nat) (waited : Nat)
  | httpError (status : Nat) (requests : Nat) (waited : Nat)
  | loopEnded (waited : Nat)
  deriving Repr, DecidableEq

/-- The retry loop of `GraphqlHelper._raw_execute` (graphql_helpers.py lines
114-134).  `responses n` is the response the server gives to the `n`-th
request (0-based).  On 401 a fatal `DinghyError` is raised at once; on 403
or 502, if this is not the last allowed attempt, sleep `PAUSE` seconds and
retry; otherwise `raise_for_status` raises for any status ≥ 400, and a
successful response's body is returned.  `remaining` counts the loop
iterations left out of `NUM_TRIES`. -/
def rawExecuteLoop (responses : Nat → HttpResponse) :
    (remaining trynum waited : Nat) → RawResult
  | 0, _, waited => RawResult.loopEnded waited
  | remaining + 1, trynum, waited =>
    let r := responses trynum
    if r.status = 401 then RawResult.credError (trynum + 1) waited
    else if (r.status = 403 ∨ r.status = 502) ∧ trynum < NUM_TRIES - 1 then
      rawExecuteLoop responses remaining (trynum + 1) (waited + PAUSE)
    else if 400 ≤ r.status then RawResult.httpError r.status (trynum + 1) waited
    else RawResult.success r.body (trynum + 1) waited

/-- `GraphqlHelper._raw_execute`: run the retry loop for `NUM_TRIES`
attempts. -/
def raw_execute (responses : Nat → HttpResponse) : RawResult :=
  rawExecuteLoop responses NUM_TRIES 0 0

/-! ### Rate-limit history (claim C8) -/

/-- One rate-limit snapshot (the dict built by `_summarize_rate_limit`). -/
abbrev RateLimit := List (String × String)

/-- Instance data of `GraphqlHelper.__init__`: an endpoint and the headers
derived from the token.  Note that the rate-limit history is *not* here:
in the source it is a class attribute. -/
structure Instance where
  endpoint : String
  token : String
  deriving Repr, DecidableEq

/-- The class-level `rate_limit_history`, a `collections.deque(maxlen=50)`
shared by the whole `GraphqlHelper` class. -/
abbrev ClassHistory := List RateLimit

/-- Appending to a `deque` with `maxlen`: when full, the oldest element is
evicted from the left. -/
def dequeAppend (maxlen : Nat) (h : List RateLimit) (r : RateLimit) : List RateLimit :=
  if h.length < maxlen then h ++ [r] else (h.drop (h.length + 1 - maxlen)) ++ [r]

/-- `GraphqlHelper.save_rate_limit` — a `classmethod`: it appends to the
single class-level deque, regardless of instance. -/
def save_rate_limit (hist : ClassHistory) (r : RateLimit) : ClassHistory :=
  dequeAppend 50 hist r

/-- `GraphqlHelper.last_rate_limit` — a `classmethod`: the most recent
snapshot in the class-level deque, if any. -/
def last_rate_limit (hist : ClassHistory) : Option RateLimit :=
  hist.getLast?

/-- Recording a snapshot "through an instance": because `save_rate_limit`
is a classmethod on a class attribute, the instance is ignored and the one
shared class history is updated. -/
def saveRateLimitVia (_inst : Instance) (hist : ClassHistory) (r : RateLimit) :
    ClassHistory :=
  save_rate_limit hist r

/-- Reading the latest snapshot "through an instance": likewise reads the
one shared class history. -/
def lastRateLimitVia (_inst : Instance) (hist : ClassHistory) : Option RateLimit :=
  last_rate_limit hist

/-! ### The `variables` dict of `nodes()` (claim C10) -/

/-- A Python dict of query variables (string-valued, which is all the
pagination code touches). -/
abbrev VarMap := List (String × String)

/-- Python dict assignment `m[k] = v`: replace in place if the key exists,
else append at the end. -/
def varSet (m : VarMap) (k v : String) : VarMap :=
  if m.any (fun kv => kv.1 == k) then
    m.map (fun kv => if kv.1 == k then (k, v) else kv)
  else m ++ [(k, v)]

/-- A heap of dict objects, so that aliasing is explicit: an address is an
index into the store. -/
structure DictHeap where
  store : List VarMap
  deriving Repr, DecidableEq

/-- Read the dict at an address. -/
def heapRead (h : DictHeap) (a : Nat) : VarMap := h.store.getD a []

/-- Overwrite the dict at an address. -/
def heapWrite (h : DictHeap) (a : Nat) (v : VarMap) : DictHeap :=
  DictHeap.mk (h.store.set a v)

/-- Allocate a fresh dict, returning its address. -/
def heapAlloc (h : DictHeap) (v : VarMap) : DictHeap × Nat :=
  (DictHeap.mk (h.store ++ [v]), h.store.length)

/-- The effect of the `nodes()` pagination loop on the heap of dicts:
each non-final page executes `variables["after"] = endCursor` on the dict
at address `vaddr` (the loop body mutates only that dict). -/
def nodesVarsLoop {α : Type} (donefn : Option (List α → Bool)) (vaddr : Nat) :
    List (Page α) → DictHeap → DictHeap
  | [], h => h
  | p :: rest, h =>
    if pageStops donefn p then h
    else
      nodesVarsLoop donefn vaddr rest
        (heapWrite h vaddr (varSet (heapRead h vaddr) "after" p.endCursor))

/-- The heap effect of `GraphqlHelper.nodes` on its `variables` argument:
line 171, `variables = dict(variables)`, allocates a fresh copy of the
caller's dict and rebinds the local name to it; the pagination loop then
writes the `after` cursor only into that copy. -/
def nodesVars {α : Type} (h : DictHeap) (argAddr : Nat)
    (donefn : Option (List α → Bool)) (pages : List (Page α)) : DictHeap :=
  let alloc := heapAlloc h (heapRead h argAddr)
  nodesVarsLoop donefn alloc.2 pages alloc.1

end GraphqlHelper

/-! ## digest.py -/

/-- A node's author: `__typename` and `login`. -/
structure Author where
  typename : String
  login : String
  deriving Repr, DecidableEq

/-- The scalar fields of a comment/review node dict.  Keys that a given
Python dict simply does not carry are modelled by their neutral value
(`none`, `""`, `false`): every use in the source reads them through
`.get(...)` with exactly that default, or only after having written them. -/
structure NodeData where
  id : String
  bodyText : String
  state : String
  review_state : Option String
  updatedAt : String
  author : Author
  isResolved : Option Bool
  pullRequestReview : Option String
  boring : Bool
  deriving Repr, DecidableEq

/-- A comment/review node: its scalar fields and its `children` list.
An absent `children` key and an empty one are indistinguishable in the
source (all reads are `.get("children")` truthiness or
`.get("children", ())`), so both are the empty list. -/
inductive Node where
  | mk (data : NodeData) (children : List Node)

/-- The scalar fields of a node. -/
def Node.data : Node → NodeData
  | Node.mk d _ => d

/-- The `children` list of a node. -/
def Node.children : Node → List Node
  | Node.mk _ c => c

/-- The `id` field of a node. -/
def Node.id (n : Node) : String := n.data.id

/-- `node["review_state"] = s`. -/
def Node.setReviewState (n : Node) (s : Option String) : Node :=
  Node.mk
    (NodeData.mk n.data.id n.data.bodyText n.data.state s n.data.updatedAt
      n.data.author n.data.isResolved n.data.pullRequestReview n.data.boring)
    n.children

/-- `node["children"] = cs`. -/
def Node.setChildren (n : Node) (cs : List Node) : Node :=
  Node.mk n.data cs

/-- `node["isResolved"] = b`. -/
def Node.setIsResolved (n : Node) (b : Bool) : Node :=
  Node.mk
    (NodeData.mk n.data.id n.data.bodyText n.data.state n.data.review_state
      n.data.updatedAt n.data.author (some b) n.data.pullRequestReview n.data.boring)
    n.children

/-- `node["boring"] = True` on the scalar fields. -/
def NodeData.setBoring (d : NodeData) (b : Bool) : NodeData :=
  NodeData.mk d.id d.bodyText d.state d.review_state d.updatedAt d.author
    d.isResolved d.pullRequestReview b

/-- The per-run filtering configuration of `Digester.__init__`:
`self.since` (an ISO timestamp string, compared lexicographically),
`self.ignore_users`, and whether `include_bots` added `"Bot"` to
`self.user_types`. -/
structure Config where
  since : String
  ignore_users : List String
  include_bots : Bool

/-- `self.user_types`: always contains `"User"`; `"Bot"` is added when the
`include_bots` option is set. -/
def Config.user_types (cfg : Config) : List String :=
  "User" :: (if cfg.include_bots then ["Bot"] else [])

/-- `Digester._node_is_interesting`: new enough, by a permitted author
kind, and not by an ignored login. -/
def node_is_interesting (cfg : Config) (d : NodeData) : Bool :=
  decide (cfg.since < d.updatedAt)
    && cfg.user_types.contains d.author.typename
    && !(cfg.ignore_users.contains d.author.login)

/-! ### Ghost normalization (claim C9) -/

/-- The scalar fields of a raw API node, where `author` may be null
(a deleted account). -/
structure RawData where
  id : String
  bodyText : String
  state : String
  review_state : Option String
  updatedAt : String
  author : Option Author
  isResolved : Option Bool
  pullRequestReview : Option String
  boring : Bool
  deriving Repr, DecidableEq

/-- A raw API node with possibly-null authors throughout. -/
inductive RawNode where
  | mk (data : RawData) (children : List RawNode)

/-- The scalar fields of a raw node. -/
def RawNode.data : RawNode → RawData
  | RawNode.mk d _ => d

/-- The author rewrite of `Digester._fix_ghosts` at one `author` key:
a null author becomes the synthetic user `{"__typename": "User",
"login": "ghost"}`; a present author is untouched. -/
def fixAuthor (a : Option Author) : Author :=
  match a with
  | none => Author.mk "User" "ghost"
  | some u => u

mutual

/-- `Digester._fix_ghosts`, on one node: rewrite a null `author` to the
ghost user and recurse into every other value (here: the children). -/
def fix_ghosts (n : RawNode) : Node :=
  match n with
  | RawNode.mk d ch =>
    Node.mk
      (NodeData.mk d.id d.bodyText d.state d.review_state d.updatedAt
        (fixAuthor d.author) d.isResolved d.pullRequestReview d.boring)
      (fixGhostsList ch)

/-- `Digester._fix_ghosts` on a list of nodes. -/
def fixGhostsList (ns : List RawNode) : List Node :=
  match ns with
  | [] => []
  | n :: rest => fix_ghosts n :: fixGhostsList rest

end

/-! ### The pull-request merge map (claims C1, C4) -/

/-- The `children` merge map of `_process_pull_request` (and the `reviews`
map): a Python dict from id to node, in insertion order. -/
abbrev ChildMap := List (String × Node)

/-- Python dict assignment `m[k] = v`: replace in place, else append. -/
def dictAssign (m : ChildMap) (k : String) (v : Node) : ChildMap :=
  if m.any (fun kv => kv.1 == k) then
    m.map (fun kv => if kv.1 == k then (k, v) else kv)
  else m ++ [(k, v)]

/-- Python `m.setdefault(k, v)` (the resulting map). -/
def dictSetdefault (m : ChildMap) (k : String) (v : Node) : ChildMap :=
  if m.any (fun kv => kv.1 == k) then m else m ++ [(k, v)]

/-- Python `m[k]` as an `Option`. -/
def dictLookup (m : ChildMap) (k : String) : Option Node :=
  (m.find? (fun kv => kv.1 == k)).map (fun kv => kv.2)

/-- digest.py lines 379-381: index the reviews by id, after setting
`rev["review_state"] = rev["state"]` on each. -/
def makeReviewsMap (revNodes : List Node) : ChildMap :=
  revNodes.foldl
    (fun m rev => dictAssign m rev.id (rev.setReviewState (some rev.data.state)))
    []

/-- One review thread: its resolved flag and its ordered comments. -/
structure Thread where
  isResolved : Bool
  comments : List Node

/-- digest.py lines 388-394, one thread: its first comment becomes the
representative, carrying the remaining comments as `children` and the
thread's resolved state, and is appended to the `children` of the review
named by its `pullRequestReview` id.  `none` models the uncaught
`IndexError`/`KeyError` when the thread is empty, the representative has
no originating review id, or that id is not in the reviews map. -/
def attachThread (revs : ChildMap) (t : Thread) : Option ChildMap :=
  match t.comments with
  | [] => none
  | com0 :: rest =>
    let rep := (com0.setChildren rest).setIsResolved t.isResolved
    match rep.data.pullRequestReview with
    | none => none
    | some revId =>
      match dictLookup revs revId with
      | none => none
      | some rev =>
        some (dictAssign revs revId (rev.setChildren (rev.children ++ [rep])))

/-- digest.py lines 388-394 over all threads. -/
def attachThreads (revs : ChildMap) (threads : List Thread) : Option ChildMap :=
  match threads with
  | [] => some revs
  | t :: rest =>
    match attachThread revs t with
    | none => none
    | some revs2 => attachThreads revs2 rest

/-- The visibility test of digest.py line 399: the review is shown if it has
a non-empty body, or at least one attached child, or a state other than
`"COMMENTED"`. -/
def showCond (rev : Node) : Bool :=
  (rev.data.bodyText != "") || !rev.children.isEmpty || (rev.data.state != "COMMENTED")

/-- digest.py lines 398-408, one review `rev` from the reviews map, acting
on the merge map: if the review is shown, copy it into the map under its id
tagged with its state; then, if it has no body and exactly one attached
child, replace that entry by the single child, tagged with the review's
`review_state`. -/
def processReview (children : ChildMap) (rev : Node) : ChildMap :=
  if showCond rev then
    let m1 := dictSetdefault children rev.id rev
    let com := (dictLookup m1 rev.id).getD rev
    let m2 := dictAssign m1 rev.id (com.setReviewState (some rev.data.state))
    if rev.data.bodyText = "" ∧ rev.children.length = 1 then
      match rev.children with
      | c :: _ => dictAssign m2 rev.id (c.setReviewState rev.data.review_state)
      | [] => m2
    else m2
  else children

/-- digest.py lines 398-408 over all reviews, in the insertion order of the
reviews map, starting from the empty merge map. -/
def processReviews (revs : ChildMap) : ChildMap :=
  revs.foldl (fun m kv => processReview m kv.2) []

/-- digest.py lines 411-412: merge in the standalone PR comments by id. -/
def addComments (children : ChildMap) (coms : List Node) : ChildMap :=
  coms.foldl (fun m c => dictAssign m c.id c) children

/-- The merge phase of `Digester._process_pull_request` (digest.py lines
375-412): index the reviews, attach each thread to its review, process the
reviews into the merge map, then merge in the standalone comments. -/
def mergePullChildren (revNodes : List Node) (threads : List Thread)
    (comNodes : List Node) : Option ChildMap :=
  match attachThreads (makeReviewsMap revNodes) threads with
  | none => none
  | some revs => some (addComments (processReviews revs) comNodes)

/-! ### Recursive pruning (claim C3) -/

/-- The sort at the end of each `_trim_unwanted_tree` level:
`sorted(keep, key=operator.itemgetter("updatedAt"))` — a stable ascending
sort by the `updatedAt` string. -/
def sortNodes (ns : List Node) : List Node :=
  List.insertionSort (fun a b => a.data.updatedAt ≤ b.data.updatedAt) ns

mutual

/-- The body of the `for node in nodes` loop of
`Digester._trim_unwanted_tree` for one node: mark it `boring` if it is not
itself interesting, recursively trim its children, and keep it (with the
trimmed children) exactly when it or some descendant is interesting. -/
def trimNode (cfg : Config) (n : Node) : Option Node :=
  match n with
  | Node.mk d ch =>
    let interesting := node_is_interesting cfg d
    let r := trimKeep cfg ch
    let kids := sortNodes r.1
    if interesting || r.2 then
      some (Node.mk (if interesting then d else d.setBoring true) kids)
    else none

/-- The `for node in nodes` loop of `Digester._trim_unwanted_tree`:
the kept nodes in input order, and whether any node was interesting
(`any_interesting_total`, which is set exactly when a node is kept). -/
def trimKeep (cfg : Config) (ns : List Node) : List Node × Bool :=
  match ns with
  | [] => ([], false)
  | n :: rest =>
    let rn := trimNode cfg n
    let rr := trimKeep cfg rest
    match rn with
    | some n2 => (n2 :: rr.1, true)
    | none => rr

end

/-- `Digester._trim_unwanted_tree`: the kept nodes, sorted ascending by
`updatedAt`, and the any-interesting flag. -/
def trim_unwanted_tree (cfg : Config) (ns : List Node) : List Node × Bool :=
  let r := trimKeep cfg ns
  (sortNodes r.1, r.2)

mutual

/-- Specification-side predicate (from the claim wording): the node is
itself interesting, or some descendant is. -/
def subtreeInteresting (cfg : Config) (n : Node) : Bool :=
  match n with
  | Node.mk d ch => node_is_interesting cfg d || subtreeAny cfg ch

/-- `subtreeInteresting` over a forest. -/
def subtreeAny (cfg : Config) (ns : List Node) : Bool :=
  match ns with
  | [] => false
  | n :: rest => subtreeInteresting cfg n || subtreeAny cfg rest

end

mutual

/-- No node of the tree carries the `boring` flag (true of all raw input:
the key is only ever written by the trim itself). -/
def boringFree (n : Node) : Bool :=
  match n with
  | Node.mk d ch => !d.boring && boringFreeList ch

/-- `boringFree` over a forest. -/
def boringFreeList (ns : List Node) : Bool :=
  match ns with
  | [] => true
  | n :: rest => boringFree n && boringFreeList rest

end


/-- The check `a.updatedAt ≤ b.updatedAt` between two adjacent nodes. -/
def nodeLE (a b : Node) : Prop := a.data.updatedAt ≤ b.data.updatedAt

/-- A node list is sorted ascending by `updatedAt` (computable check). -/
def sortedByUpdated (ns : List Node) : Bool :=
  match ns with
  | [] => true
  | [_] => true
  | a :: b :: rest =>
    decide (a.data.updatedAt ≤ b.data.updatedAt) && sortedByUpdated (b :: rest)

mutual

/-- Every level of the forest (this one and, recursively, every `children`
list) is sorted ascending by `updatedAt`. -/
def allLevelsSorted (ns : List Node) : Bool :=
  sortedByUpdated ns && childLevelsSorted ns

/-- `allLevelsSorted` applied to the children of each node in the list. -/
def childLevelsSorted (ns : List Node) : Bool :=
  match ns with
  | [] => true
  | Node.mk _ ch :: rest => allLevelsSorted ch && childLevelsSorted rest

end

/-- Every node in the forest (at every level) carries the `boring` flag
exactly when it is not itself interesting. -/
def boringMatches (cfg : Config) : List Node → Bool
  | [] => true
  | Node.mk d ch :: rest =>
    (d.boring == !node_is_interesting cfg d) && boringMatches cfg ch
      && boringMatches cfg rest

/-- graphql_helpers.py lines 174-179: locate the pagination container of a
response; when no dict carrying `pageInfo` is found, `nodes()` raises the
distinguishable `DinghyError` about missing data/permissions. -/
def nodesLocate (data : List (String × JValue)) :
    Except String (List (String × JValue)) :=
  match find_dict_with_key data "pageInfo" with
  | none => Except.error "Query returned no data, you may need more permissions in your token"
  | some fetched => Except.ok fetched

/-! ## Association-list lemmas for the Python-dict model -/

theorem any_keys_false_head {a : String × Node} {m : ChildMap} {k : String}
    (h : ((a :: m).any (fun kv => kv.1 == k)) = false) :
    (a.1 == k) = false ∧ m.any (fun kv => kv.1 == k) = false := by
  simp only [List.any_cons, Bool.or_eq_false_iff] at h
  exact h

theorem dictSetdefault_of_absent (m : ChildMap) (k : String) (v : Node)
    (h : m.any (fun kv => kv.1 == k) = false) :
    dictSetdefault m k v = m ++ [(k, v)] := by
  simp [dictSetdefault, h]

theorem dictLookup_append_absent (m : ChildMap) (k : String) (v : Node)
    (h : m.any (fun kv => kv.1 == k) = false) :
    dictLookup (m ++ [(k, v)]) k = some v := by
  induction m with
  | nil => simp [dictLookup, List.find?]
  | cons a rest ih =>
    obtain ⟨h1, h2⟩ := any_keys_false_head h
    simpa [dictLookup, List.find?_cons_of_neg, h1] using ih h2

theorem map_assign_absent (m : ChildMap) (k : String) (v' : Node)
    (h : m.any (fun kv => kv.1 == k) = false) :
    m.map (fun kv => if kv.1 == k then (k, v') else kv) = m := by
  induction m with
  | nil => rfl
  | cons a rest ih =>
    obtain ⟨h1, h2⟩ := any_keys_false_head h
    have hne : ¬((a.1 == k) = true) := by simp [h1]
    rw [List.map_cons, if_neg hne, ih h2]

theorem dictAssign_append_absent (m : ChildMap) (k : String) (v v' : Node)
    (h : m.any (fun kv => kv.1 == k) = false) :
    dictAssign (m ++ [(k, v)]) k v' = m ++ [(k, v')] := by
  have hany : ((m ++ [(k, v)]).any (fun kv => kv.1 == k)) = true := by simp
  unfold dictAssign
  rw [if_pos hany, List.map_append, map_assign_absent m k v' h]
  simp

end Dinghy

namespace Dinghy

theorem dictLookup_assign_self (m : ChildMap) (k : String) (v : Node) :
    dictLookup (dictAssign m k v) k = some v := by
  induction m with
  | nil => simp [dictAssign, dictLookup, List.find?]
  | cons a rest ih =>
    by_cases h1 : (a.1 == k) = true
    · have hany : ((a :: rest).any (fun kv => kv.1 == k)) = true := by
        simp [List.any_cons, h1]
      unfold dictAssign
      rw [if_pos hany, List.map_cons, if_pos h1]
      simp [dictLookup, List.find?]
    · have h1f : (a.1 == k) = false := by rw [Bool.eq_false_iff]; exact h1
      by_cases h2 : (rest.any (fun kv => kv.1 == k)) = true
      · have hany : ((a :: rest).any (fun kv => kv.1 == k)) = true := by
          simp [List.any_cons, h2]
        unfold dictAssign
        rw [if_pos hany, List.map_cons, if_neg h1]
        have ih2 := ih
        unfold dictAssign at ih2
        rw [if_pos h2] at ih2
        simpa [dictLookup, List.find?_cons_of_neg, h1f] using ih2
      · have h2f : (rest.any (fun kv => kv.1 == k)) = false := by
          rw [Bool.eq_false_iff]; exact h2
        have hany : ((a :: rest).any (fun kv => kv.1 == k)) = false := by
          simp [List.any_cons, h1f, h2f]
        unfold dictAssign
        rw [if_neg (by simp [hany])]
        have := dictLookup_append_absent (a :: rest) k v hany
        simpa using this

/-! ## Claim C1: the review collapse rule -/

/-- C1 (amended): in the review-visibility loop, with the review's id not
yet in the merge map: a shown review with no body and exactly one attached
child is replaced in the map (under its id) by that single child tagged
with the review's `review_state` — *regardless of the review state*; every
other shown review is itself copied into the map tagged with its state;
a review that is not shown leaves the map unchanged. -/
theorem review_collapse_rule (m : ChildMap) (rev : Node)
    (hid : m.any (fun kv => kv.1 == rev.id) = false) :
    (showCond rev = true → rev.data.bodyText = "" → ∀ c, rev.children = [c] →
        processReview m rev = m ++ [(rev.id, c.setReviewState rev.data.review_state)])
    ∧ (showCond rev = true → ¬(rev.data.bodyText = "" ∧ rev.children.length = 1) →
        processReview m rev = m ++ [(rev.id, rev.setReviewState (some rev.data.state))])
    ∧ (showCond rev = false → processReview m rev = m) := by
  refine ⟨?_, ?_, ?_⟩
  · intro hs hb c hc
    unfold processReview
    rw [if_pos hs]
    simp only [dictSetdefault_of_absent _ _ _ hid, dictLookup_append_absent _ _ _ hid,
      Option.getD_some, dictAssign_append_absent _ _ _ _ hid]
    rw [hc]
    rw [if_pos ⟨hb, rfl⟩]
  · intro hs hno
    unfold processReview
    rw [if_pos hs]
    simp only [dictSetdefault_of_absent _ _ _ hid, dictLookup_append_absent _ _ _ hid,
      Option.getD_some, dictAssign_append_absent _ _ _ _ hid]
    rw [if_neg hno]
  · intro hs
    unfold processReview
    rw [if_neg (by simp [hs])]

/-- The author used in the concrete C1 scenario. -/
def cxAuthor : Author := Author.mk "User" "alice"

/-- A single inline comment attached to the review of the C1 scenario. -/
def cxComment : Node :=
  Node.mk (NodeData.mk "c1" "a nice comment" "" none "2024-01-02T00:00:00" cxAuthor
    none (some "r1") false) []

/-- An `APPROVED` review with empty body and exactly one attached child. -/
def cxReview : Node :=
  Node.mk (NodeData.mk "r1" "" "APPROVED" (some "APPROVED") "2024-01-03T00:00:00"
    cxAuthor none none false) [cxComment]

/-- C1 counterexample: for the shown review `cxReview`, whose state is
`"APPROVED"` (not the plain commented state), the claim says the review
itself is copied into the merge map under its id; but because it has no
body and exactly one attached child, the code collapses it: the map entry
at its id is the child (id `"c1"`), not the review (id `"r1"`). -/
theorem review_collapse_counterexample :
    cxReview.data.state = "APPROVED"
    ∧ cxReview.data.bodyText = ""
    ∧ showCond cxReview = true
    ∧ cxReview.children.length = 1
    ∧ cxReview.id = "r1"
    ∧ (dictLookup (processReview [] cxReview) "r1").map Node.id = some "c1"
    ∧ cxComment.id = "c1"
    ∧ "c1" ≠ "r1" :=
  ⟨rfl, rfl, rfl, rfl, rfl, rfl, rfl, by decide⟩

/-- Witness for `review_collapse_rule` at a concrete input. -/
theorem review_collapse_rule_witness :
    (([] : ChildMap).any (fun kv => kv.1 == cxReview.id) = false)
    ∧ showCond cxReview = true
    ∧ cxReview.data.bodyText = ""
    ∧ cxReview.children = [cxComment]
    ∧ processReview [] cxReview
        = [("r1", cxComment.setReviewState (some "APPROVED"))] := by
  refine ⟨rfl, rfl, rfl, rfl, ?_⟩
  have h := (review_collapse_rule [] cxReview rfl).1 rfl rfl cxComment rfl
  simpa using h

end Dinghy

namespace Dinghy

theorem dictAssign_keys_nodup (m : ChildMap) (k : String) (v : Node)
    (h : (m.map (fun kv => kv.1)).Nodup) :
    ((dictAssign m k v).map (fun kv => kv.1)).Nodup := by
  by_cases hk : (m.any (fun kv => kv.1 == k)) = true
  · have hkeys : (dictAssign m k v).map (fun kv => kv.1) = m.map (fun kv => kv.1) := by
      unfold dictAssign
      rw [if_pos hk, List.map_map]
      apply List.map_congr_left
      intro kv _
      by_cases hkv : (kv.1 == k) = true
      · simp only [Function.comp_apply, if_pos hkv]
        exact (eq_of_beq hkv).symm
      · simp only [Function.comp_apply, if_neg hkv]
    rw [hkeys]
    exact h
  · have hkf : (m.any (fun kv => kv.1 == k)) = false := Bool.eq_false_iff.mpr hk
    have hnot : k ∉ m.map (fun kv => kv.1) := by
      intro hmem
      obtain ⟨kv, hkv, hkeq⟩ := List.mem_map.mp hmem
      have hb : (kv.1 == k) = true := by simp [hkeq]
      have hany : (m.any (fun kv => kv.1 == k)) = true :=
        List.any_eq_true.mpr ⟨kv, hkv, hb⟩
      rw [hkf] at hany
      exact absurd hany (by simp)
    unfold dictAssign
    rw [if_neg (by simp [hkf]), List.map_append]
    simp [List.Nodup.append, List.nodup_append, h, hnot]

theorem dictSetdefault_keys_nodup (m : ChildMap) (k : String) (v : Node)
    (h : (m.map (fun kv => kv.1)).Nodup) :
    ((dictSetdefault m k v).map (fun kv => kv.1)).Nodup := by
  by_cases hk : (m.any (fun kv => kv.1 == k)) = true
  · unfold dictSetdefault
    rw [if_pos hk]
    exact h
  · have hkf : (m.any (fun kv => kv.1 == k)) = false := Bool.eq_false_iff.mpr hk
    have hnot : k ∉ m.map (fun kv => kv.1) := by
      intro hmem
      obtain ⟨kv, hkv, hkeq⟩ := List.mem_map.mp hmem
      have hb : (kv.1 == k) = true := by simp [hkeq]
      have hany : (m.any (fun kv => kv.1 == k)) = true :=
        List.any_eq_true.mpr ⟨kv, hkv, hb⟩
      rw [hkf] at hany
      exact absurd hany (by simp)
    unfold dictSetdefault
    rw [if_neg (by simp [hkf]), List.map_append]
    simp [List.nodup_append, h, hnot]

theorem foldl_keys_nodup {β : Type} (step : ChildMap → β → ChildMap)
    (hstep : ∀ m b, (m.map (fun kv => kv.1)).Nodup → ((step m b).map (fun kv => kv.1)).Nodup)
    (l : List β) :
    ∀ m, (m.map (fun kv => kv.1)).Nodup → ((l.foldl step m).map (fun kv => kv.1)).Nodup := by
  induction l with
  | nil => intro m h; exact h
  | cons b rest ih =>
    intro m h
    exact ih _ (hstep m b h)

theorem processReview_keys_nodup (m : ChildMap) (rev : Node)
    (h : (m.map (fun kv => kv.1)).Nodup) :
    ((processReview m rev).map (fun kv => kv.1)).Nodup := by
  by_cases hs : showCond rev = true
  · rw [processReview, if_pos hs]
    dsimp only
    split
    · split
      · exact dictAssign_keys_nodup _ _ _
          (dictAssign_keys_nodup _ _ _ (dictSetdefault_keys_nodup _ _ _ h))
      · exact dictAssign_keys_nodup _ _ _ (dictSetdefault_keys_nodup _ _ _ h)
    · exact dictAssign_keys_nodup _ _ _ (dictSetdefault_keys_nodup _ _ _ h)
  · rw [processReview, if_neg hs]
    exact h

theorem dictLookup_append_other (m : ChildMap) (k : String) (v : Node) (x : String)
    (hkx : (k == x) = false) :
    dictLookup (m ++ [(k, v)]) x = dictLookup m x := by
  induction m with
  | nil => simp [dictLookup, List.find?, hkx]
  | cons a rest ih =>
    by_cases ha : (a.1 == x) = true
    · simp [dictLookup, List.find?_cons_of_pos, ha]
    · have haf : (a.1 == x) = false := Bool.eq_false_iff.mpr ha
      simpa [dictLookup, List.find?_cons_of_neg, haf] using ih

theorem find_map_assign_other (m : ChildMap) (k : String) (v : Node) (x : String)
    (hkx : (k == x) = false) :
    List.find? (fun kv => kv.1 == x)
        (m.map (fun kv => if kv.1 == k then (k, v) else kv))
      = List.find? (fun kv => kv.1 == x) m := by
  induction m with
  | nil => rfl
  | cons a rest ih =>
    by_cases ha : (a.1 == k) = true
    · have hax : (a.1 == x) = false := by
        have hak : a.1 = k := eq_of_beq ha
        rw [hak]
        exact hkx
      rw [List.map_cons, if_pos ha]
      simp only [List.find?, hkx, hax]
      exact ih
    · rw [List.map_cons, if_neg ha]
      by_cases hax : (a.1 == x) = true
      · simp only [List.find?, hax]
      · have haxf : (a.1 == x) = false := Bool.eq_false_iff.mpr hax
        simp only [List.find?, haxf]
        exact ih

theorem dictLookup_assign_other (m : ChildMap) (k : String) (v : Node) (x : String)
    (hkx : (k == x) = false) :
    dictLookup (dictAssign m k v) x = dictLookup m x := by
  by_cases hk : (m.any (fun kv => kv.1 == k)) = true
  · unfold dictAssign
    rw [if_pos hk]
    unfold dictLookup
    rw [find_map_assign_other m k v x hkx]
  · unfold dictAssign
    rw [if_neg hk]
    exact dictLookup_append_other m k v x hkx

theorem addComments_lookup_stable (m0 : ChildMap) (coms : List Node) (x : String)
    (h : ∀ n ∈ coms, (n.id == x) = false) :
    dictLookup (addComments m0 coms) x = dictLookup m0 x := by
  induction coms generalizing m0 with
  | nil => rfl
  | cons c0 rest ih =>
    have h0 := h c0 (by simp)
    have hrest : ∀ n ∈ rest, (n.id == x) = false := fun n hn => h n (by simp [hn])
    simp only [addComments, List.foldl_cons]
    have := ih (dictAssign m0 c0.id c0) hrest
    simp only [addComments] at this
    rw [this]
    exact dictLookup_assign_other m0 c0.id c0 x h0

theorem addComments_lookup_unique (m0 : ChildMap) (coms : List Node) (x : String)
    (c : Node) (hc : coms.filter (fun n => n.id == x) = [c]) :
    dictLookup (addComments m0 coms) x = some c := by
  induction coms generalizing m0 with
  | nil => exact absurd hc (by simp)
  | cons c0 rest ih =>
    by_cases h0 : (c0.id == x) = true
    · simp only [List.filter_cons, h0, if_true] at hc
      injection hc with hceq hrest
      subst hceq
      have hnone : ∀ n ∈ rest, (n.id == x) = false := by
        intro n hn
        have := List.filter_eq_nil_iff.mp hrest n hn
        exact Bool.eq_false_iff.mpr this
      have hxid : c0.id = x := eq_of_beq h0
      simp only [addComments, List.foldl_cons]
      have hstable := addComments_lookup_stable (dictAssign m0 c0.id c0) rest x hnone
      simp only [addComments] at hstable
      rw [hstable, hxid]
      exact dictLookup_assign_self m0 x c0
    · have h0f : (c0.id == x) = false := Bool.eq_false_iff.mpr h0
      simp only [List.filter_cons, h0f, Bool.false_eq_true, if_false] at hc
      simp only [addComments, List.foldl_cons]
      have := ih (dictAssign m0 c0.id c0) hc
      simpa only [addComments] using this

/-! ## Claim C4: dedup of the merged children map -/

/-- C4: in every merged children map, each id is a key at most once
(the key list has no duplicates, so there is exactly one entry for any
present id), and when the standalone PR comments contain exactly one
comment with a given id, the merge map's final entry at that id is that
standalone comment — the later write wins over whatever the review/thread
phase put there. -/
theorem merged_children_map_dedup (revNodes : List Node) (threads : List Thread)
    (comNodes : List Node) (m : ChildMap) (x : String) (c : Node)
    (hm : mergePullChildren revNodes threads comNodes = some m)
    (hc : comNodes.filter (fun n => n.id == x) = [c]) :
    (m.map (fun kv => kv.1)).Nodup
    ∧ dictLookup m x = some c := by
  unfold mergePullChildren at hm
  cases hat : attachThreads (makeReviewsMap revNodes) threads with
  | none => rw [hat] at hm; cases hm
  | some revs =>
    rw [hat] at hm
    have hm2 : addComments (processReviews revs) comNodes = m := by
      injection hm
    constructor
    · rw [← hm2]
      unfold addComments
      apply foldl_keys_nodup _ (fun m0 b h0 => dictAssign_keys_nodup m0 b.id b h0)
      unfold processReviews
      apply foldl_keys_nodup _ (fun m0 b h0 => processReview_keys_nodup m0 b.2 h0)
      simp
    · rw [← hm2]
      exact addComments_lookup_unique _ comNodes x c hc

/-- Author of the C4 duplicate-id scenario. -/
def dupAuthor : Author := Author.mk "User" "bob"

/-- A review-thread representative comment whose id also appears as a
standalone PR comment id. -/
def dupRep : Node :=
  Node.mk (NodeData.mk "X" "thread comment" "" none "2024-01-02T00:00:00" dupAuthor
    none (some "X") false) []

/-- An empty COMMENTED review hosting the thread, with id "X". -/
def dupReview : Node :=
  Node.mk (NodeData.mk "X" "" "COMMENTED" none "2024-01-01T00:00:00" dupAuthor
    none none false) []

/-- The thread holding the representative comment. -/
def dupThread : Thread := Thread.mk false [dupRep]

/-- A standalone PR comment with the same id "X". -/
def dupStandalone : Node :=
  Node.mk (NodeData.mk "X" "standalone comment" "" none "2024-01-03T00:00:00" dupAuthor
    none none false) []

/-- Witness for `merged_children_map_dedup`: the id "X" reaches the merge
both through the thread's representative comment (collapsed into the map)
and through a standalone comment; the final map holds exactly the
standalone comment. -/
theorem merged_children_map_dedup_witness :
    mergePullChildren [dupReview] [dupThread] [dupStandalone]
        = some [("X", dupStandalone)]
    ∧ [dupStandalone].filter (fun n => n.id == "X") = [dupStandalone]
    ∧ ((([("X", dupStandalone)] : ChildMap).map (fun kv => kv.1)).Nodup
        ∧ dictLookup [("X", dupStandalone)] "X" = some dupStandalone) :=
  ⟨rfl, rfl,
    merged_children_map_dedup [dupReview] [dupThread] [dupStandalone]
      [("X", dupStandalone)] "X" dupStandalone rfl rfl⟩

end Dinghy

namespace Dinghy

namespace GraphqlHelper

/-! ## Claim C2: exact pagination of nodes() -/

/-- C2: when the upstream serves pages `before ++ p :: rest` where no page
of `before` satisfies the stop test and `p` does (its `PageInfo` reports no
next page, or the stop predicate fires on its node list), the pagination
loop returns exactly the concatenation of the node lists of `before ++ [p]`
in page order and has fetched exactly `before.length + 1` pages: the
stopping page's nodes are included, and no page beyond it is requested
(the result does not depend on `rest`). -/
theorem nodes_exact_pagination {α : Type} (donefn : Option (List α → Bool))
    (before : List (Page α)) (p : Page α) (rest : List (Page α))
    (hbefore : ∀ q ∈ before, pageStops donefn q = false)
    (hstop : pageStops donefn p = true) :
    nodesLoop donefn (before ++ p :: rest)
      = some (((before ++ [p]).map Page.nodes).flatten, before.length + 1) := by
  induction before with
  | nil =>
    simp only [List.nil_append, List.length_nil]
    rw [nodesLoop, if_pos hstop]
    simp
  | cons q qs ih =>
    have hq : pageStops donefn q = false := hbefore q (by simp)
    have hqs : ∀ r ∈ qs, pageStops donefn r = false :=
      fun r hr => hbefore r (by simp [hr])
    simp only [List.cons_append]
    rw [nodesLoop, if_neg (by simp [hq])]
    rw [ih hqs]
    simp

/-- The three pages of the C2 witness scenario: sizes 2, 2, 1 with
`hasNextPage` true, true, false. -/
def wPages : List (Page Nat) :=
  [Page.mk [1, 2] true "c1", Page.mk [3, 4] true "c2", Page.mk [5] false "c3"]

/-- Witness for `nodes_exact_pagination`: pages of sizes [2, 2, 1] yield
the 5 nodes in arrival order after exactly 3 fetches. -/
theorem nodes_exact_pagination_witness :
    (∀ q ∈ [Page.mk ([1, 2] : List Nat) true "c1", Page.mk [3, 4] true "c2"],
        pageStops none q = false)
    ∧ pageStops (α := Nat) none (Page.mk [5] false "c3") = true
    ∧ nodesLoop none wPages = some ([1, 2, 3, 4, 5], 3) := by
  refine ⟨by decide, rfl, ?_⟩
  have h := nodes_exact_pagination none
    [Page.mk ([1, 2] : List Nat) true "c1", Page.mk [3, 4] true "c2"]
    (Page.mk [5] false "c3") [] (by decide) rfl
  simpa [wPages] using h

/-! ## Claim C10: the caller's variables dict is not mutated -/

/-- C10: `nodes()` first copies the caller's `variables` dict
(`variables = dict(variables)`) and the pagination loop writes the
`after` cursor only into that copy, so after the whole loop the dict at
the caller's address is unchanged. -/
theorem nodes_preserves_caller_variables {α : Type} (h : DictHeap) (a : Nat)
    (donefn : Option (List α → Bool)) (pages : List (Page α))
    (ha : a < h.store.length) :
    heapRead (nodesVars h a donefn pages) a = heapRead h a := by
  have hwrite : ∀ (h0 : DictHeap) (v : VarMap) (b : Nat), a ≠ b →
      heapRead (heapWrite h0 b v) a = heapRead h0 a := by
    intro h0 v b hab
    unfold heapRead heapWrite
    simp only
    rw [List.getD_eq_getElem?_getD, List.getD_eq_getElem?_getD,
      List.getElem?_set_ne (by omega)]
  have hloop : ∀ (ps : List (Page α)) (h0 : DictHeap) (b : Nat), a ≠ b →
      heapRead (nodesVarsLoop donefn b ps h0) a = heapRead h0 a := by
    intro ps
    induction ps with
    | nil => intro h0 b hab; rfl
    | cons p rest ih =>
      intro h0 b hab
      rw [nodesVarsLoop]
      by_cases hs : pageStops donefn p = true
      · rw [if_pos hs]
      · rw [if_neg hs]
        rw [ih _ b hab]
        exact hwrite h0 _ b hab
  have halloc : heapRead (DictHeap.mk (h.store ++ [heapRead h a])) a = heapRead h a := by
    unfold heapRead
    simp only
    rw [List.getD_eq_getElem?_getD, List.getD_eq_getElem?_getD,
      List.getElem?_append_left ha]
  unfold nodesVars heapAlloc
  rw [hloop pages _ h.store.length (by omega)]
  exact halloc

/-- Witness for `nodes_preserves_caller_variables`: a concrete heap with
the caller's dict at address 0 and one continuing page. -/
theorem nodes_preserves_caller_variables_witness :
    (0 < (DictHeap.mk [[("owner", "nedbat")]]).store.length)
    ∧ heapRead
        (nodesVars (α := Nat) (DictHeap.mk [[("owner", "nedbat")]]) 0 none
          [Page.mk [1] true "c1", Page.mk [2] false "c2"]) 0
      = heapRead (DictHeap.mk [[("owner", "nedbat")]]) 0 :=
  ⟨by decide,
    nodes_preserves_caller_variables (DictHeap.mk [[("owner", "nedbat")]]) 0 none
      [Page.mk [1] true "c1", Page.mk [2] false "c2"] (by decide)⟩

end GraphqlHelper

end Dinghy

namespace Dinghy

namespace GraphqlHelper

/-! ## Claim C5: HTTP 401 fatal, 403/502 retried with bounded attempts -/

theorem rawExecuteLoop_cred (responses : Nat → HttpResponse) :
    ∀ (k remaining trynum waited : Nat),
    trynum + remaining = NUM_TRIES → k < remaining →
    (responses (trynum + k)).status = 401 →
    (∀ i, i < k → (responses (trynum + i)).status = 403 ∨ (responses (trynum + i)).status = 502) →
    rawExecuteLoop responses remaining trynum waited
      = RawResult.credError (trynum + k + 1) (waited + PAUSE * k) := by
  intro k
  induction k with
  | zero =>
    intro remaining trynum waited hsum hk h401 _
    match remaining, hk with
    | r + 1, _ =>
      rw [rawExecuteLoop]
      rw [if_pos (by simpa using h401)]
      simp
  | succ k ih =>
    intro remaining trynum waited hsum hk h401 hall
    match remaining, hk with
    | r + 1, _ =>
      have h0 := hall 0 (by omega)
      simp only [Nat.add_zero] at h0
      have hn401 : ¬((responses trynum).status = 401) := by
        rcases h0 with h | h <;> omega
      have htry : trynum < NUM_TRIES - 1 := by
        unfold NUM_TRIES at hsum ⊢
        omega
      rw [rawExecuteLoop, if_neg hn401, if_pos ⟨h0, htry⟩]
      have h401s : (responses ((trynum + 1) + k)).status = 401 := by
        have : (trynum + 1) + k = trynum + (k + 1) := by omega
        rw [this]
        exact h401
      have halls : ∀ i, i < k →
          (responses ((trynum + 1) + i)).status = 403
            ∨ (responses ((trynum + 1) + i)).status = 502 := by
        intro i hi
        have : (trynum + 1) + i = trynum + (i + 1) := by omega
        rw [this]
        exact hall (i + 1) (by omega)
      have := ih r (trynum + 1) (waited + PAUSE) (by omega) (by omega) h401s halls
      rw [this]
      have e1 : (trynum + 1) + k + 1 = trynum + (k + 1) + 1 := by omega
      have e2 : (waited + PAUSE) + PAUSE * k = waited + PAUSE * (k + 1) := by
        unfold PAUSE
        omega
      rw [e1, e2]

theorem rawExecuteLoop_exhaust (responses : Nat → HttpResponse) :
    ∀ (remaining trynum waited : Nat),
    trynum + remaining = NUM_TRIES → 0 < remaining →
    (∀ i, i < NUM_TRIES → (responses i).status = 403 ∨ (responses i).status = 502) →
    rawExecuteLoop responses remaining trynum waited
      = RawResult.httpError (responses (NUM_TRIES - 1)).status NUM_TRIES
          (waited + PAUSE * (remaining - 1)) := by
  intro remaining
  induction remaining with
  | zero => intro trynum waited _ h0 _; omega
  | succ r ih =>
    intro trynum waited hsum _ hall
    have h0 := hall trynum (by omega)
    have hn401 : ¬((responses trynum).status = 401) := by
      rcases h0 with h | h <;> omega
    rcases Nat.eq_zero_or_pos r with hr | hr
    · subst hr
      have htry : ¬(trynum < NUM_TRIES - 1) := by
        unfold NUM_TRIES at hsum ⊢
        omega
      have hge : 400 ≤ (responses trynum).status := by
        rcases h0 with h | h <;> omega
      rw [rawExecuteLoop, if_neg hn401,
        if_neg (by intro hcon; exact htry hcon.2), if_pos hge]
      have e1 : trynum = NUM_TRIES - 1 := by unfold NUM_TRIES at hsum ⊢; omega
      have e3 : NUM_TRIES - 1 + 1 = NUM_TRIES := by unfold NUM_TRIES; omega
      rw [e1, e3]
      simp
    · have htry : trynum < NUM_TRIES - 1 := by
        unfold NUM_TRIES at hsum ⊢
        omega
      rw [rawExecuteLoop, if_neg hn401, if_pos ⟨h0, htry⟩]
      rw [ih (trynum + 1) (waited + PAUSE) (by omega) (by omega) hall]
      have e2 : (waited + PAUSE) + PAUSE * (r - 1) = waited + PAUSE * (r + 1 - 1) := by
        unfold PAUSE
        omega
      rw [e2]

/-- C5: an HTTP 401 response (here, first reached after `k` transient
403/502 responses) makes `_raw_execute` fail immediately and fatally with
the credential `DinghyError` — the 401 itself is never retried; HTTP 403
and 502 responses are retried with a fixed pause of `PAUSE = 5` seconds
between attempts up to the bound of `NUM_TRIES = 200` attempts, and when
every attempt gets such a response, the final attempt's HTTP error is
surfaced to the caller (`raise_for_status`) after exactly 200 requests. -/
theorem raw_execute_retry_policy (responses : Nat → HttpResponse) (k : Nat) :
    (k < NUM_TRIES → (responses k).status = 401 →
      (∀ i, i < k → (responses i).status = 403 ∨ (responses i).status = 502) →
      raw_execute responses = RawResult.credError (k + 1) (PAUSE * k))
    ∧ ((∀ i, i < NUM_TRIES → (responses i).status = 403 ∨ (responses i).status = 502) →
      raw_execute responses
        = RawResult.httpError (responses (NUM_TRIES - 1)).status NUM_TRIES
            (PAUSE * (NUM_TRIES - 1))) := by
  constructor
  · intro hk h401 hall
    have := rawExecuteLoop_cred responses k NUM_TRIES 0 0 (by omega) hk
      (by simpa using h401) (by simpa using hall)
    simpa [raw_execute] using this
  · intro hall
    have := rawExecuteLoop_exhaust responses NUM_TRIES 0 0 (by omega)
      (by unfold NUM_TRIES; omega) hall
    simpa [raw_execute] using this

/-- A server that always answers 401. -/
def respAll401 : Nat → HttpResponse := fun _ => HttpResponse.mk 401 ""

/-- A server that always answers 403. -/
def respAll403 : Nat → HttpResponse := fun _ => HttpResponse.mk 403 ""

/-- Witness for `raw_execute_retry_policy` at two concrete servers. -/
theorem raw_execute_retry_policy_witness :
    (0 < NUM_TRIES ∧ (respAll401 0).status = 401
      ∧ raw_execute respAll401 = RawResult.credError 1 (PAUSE * 0))
    ∧ ((∀ i, i < NUM_TRIES → (respAll403 i).status = 403 ∨ (respAll403 i).status = 502)
      ∧ raw_execute respAll403
          = RawResult.httpError (respAll403 (NUM_TRIES - 1)).status NUM_TRIES
              (PAUSE * (NUM_TRIES - 1))) := by
  refine ⟨⟨by decide, rfl, ?_⟩, ⟨fun i _ => Or.inl rfl, ?_⟩⟩
  · have h := (raw_execute_retry_policy respAll401 0).1 (by decide) rfl
      (fun i hi => absurd hi (by omega))
    simpa using h
  · exact (raw_execute_retry_policy respAll403 0).2 (fun i _ => Or.inl rfl)

/-! ## Claim C8: the rate-limit history -/

/-- C8 counterexample: the rate-limit history is a class attribute of
`GraphqlHelper`, written and read through classmethods, so a snapshot
recorded through one instance *is* observable through a different
instance, contradicting the claim's instance-scoping. -/
theorem rate_limit_history_shared_counterexample :
    (Instance.mk "https://api.github.com/graphql" "token-a"
        ≠ Instance.mk "https://alt.example/graphql" "token-b")
    ∧ lastRateLimitVia (Instance.mk "https://alt.example/graphql" "token-b")
        (saveRateLimitVia (Instance.mk "https://api.github.com/graphql" "token-a") []
          [("resource", "core")])
      = some [("resource", "core")] :=
  ⟨by decide, rfl⟩

/-- C8 (amended): the retained history holds at most 50 snapshots,
evicting the oldest first when a snapshot is appended at capacity; but the
history is class-level, shared by every `GraphqlHelper` instance: a
snapshot recorded through one instance is observed as the latest snapshot
through any other instance. -/
theorem rate_limit_history_bounded_shared (hist : ClassHistory) (r : RateLimit)
    (h : hist.length ≤ 50) :
    (save_rate_limit hist r).length ≤ 50
    ∧ (hist.length = 50 → save_rate_limit hist r = hist.drop 1 ++ [r])
    ∧ (hist.length < 50 → save_rate_limit hist r = hist ++ [r])
    ∧ (∀ inst1 inst2 : Instance,
        lastRateLimitVia inst2 (saveRateLimitVia inst1 hist r) = some r) := by
  refine ⟨?_, ?_, ?_, ?_⟩
  · unfold save_rate_limit dequeAppend
    by_cases hl : hist.length < 50
    · rw [if_pos hl]
      simp
      omega
    · rw [if_neg hl]
      simp
      omega
  · intro h50
    unfold save_rate_limit dequeAppend
    rw [if_neg (by omega), h50]
  · intro hl
    unfold save_rate_limit dequeAppend
    rw [if_pos hl]
  · intro i1 i2
    unfold lastRateLimitVia saveRateLimitVia last_rate_limit save_rate_limit dequeAppend
    by_cases hl : hist.length < 50
    · rw [if_pos hl]
      exact List.getLast?_concat _
    · rw [if_neg hl]
      exact List.getLast?_concat _

/-- Witness for `rate_limit_history_bounded_shared` on the empty history. -/
theorem rate_limit_history_bounded_shared_witness :
    (([] : ClassHistory).length ≤ 50)
    ∧ ((save_rate_limit [] [("remaining", "4999")]).length ≤ 50
      ∧ (([] : ClassHistory).length = 50 →
          save_rate_limit [] [("remaining", "4999")] = ([] : ClassHistory).drop 1 ++ [[("remaining", "4999")]])
      ∧ (([] : ClassHistory).length < 50 →
          save_rate_limit [] [("remaining", "4999")] = [] ++ [[("remaining", "4999")]])
      ∧ (∀ inst1 inst2 : Instance,
          lastRateLimitVia inst2 (saveRateLimitVia inst1 [] [("remaining", "4999")])
            = some [("remaining", "4999")])) :=
  ⟨by decide, rate_limit_history_bounded_shared [] [("remaining", "4999")] (by decide)⟩

end GraphqlHelper

end Dinghy

namespace Dinghy

/-! ## Claim C6: locating the pagination container -/

mutual

theorem find_eq_dfs_head (d : List (String × JValue)) (key : String) :
    find_dict_with_key d key = (dictsWithKey d key).head? := by
  rw [find_dict_with_key, dictsWithKey]
  by_cases hk : hasKey d key = true
  · rw [if_pos hk, if_pos hk]
    simp
  · rw [if_neg hk, if_neg hk]
    simp only [List.nil_append]
    exact findInValues_eq_dfs d key

theorem findInValues_eq_dfs (d : List (String × JValue)) (key : String) :
    findInValues d key = (dictsWithKeyValues d key).head? := by
  match d with
  | [] =>
    simp only [findInValues, dictsWithKeyValues]
    rfl
  | (s, JValue.obj dd) :: rest =>
    simp only [findInValues, dictsWithKeyValues]
    rw [find_eq_dfs_head dd key, findInValues_eq_dfs rest key]
    cases hdd : dictsWithKey dd key with
    | nil => simp
    | cons x xs => simp
  | (s, JValue.arr es) :: rest =>
    simp only [findInValues, dictsWithKeyValues]
    exact findInValues_eq_dfs rest key
  | (s, JValue.prim p) :: rest =>
    simp only [findInValues, dictsWithKeyValues]
    exact findInValues_eq_dfs rest key

end

/-- C6 (amended): `nodes()` raises the distinguishable "no paginated
container" error exactly when no dict carrying `pageInfo` is reachable
from the response root through *dict values only* — a `pageInfo`-bearing
object nested inside an array is not found; when such a dict is reachable,
the first one in the deterministic depth-first traversal over dict values
(a dict yielded before its descendants) is used as the container. -/
theorem nodes_locate_characterization (data : List (String × JValue)) :
    find_dict_with_key data "pageInfo" = (dictsWithKey data "pageInfo").head?
    ∧ (nodesLocate data
        = Except.error "Query returned no data, you may need more permissions in your token"
      ↔ dictsWithKey data "pageInfo" = [])
    ∧ (∀ fetched, nodesLocate data = Except.ok fetched →
        (dictsWithKey data "pageInfo").head? = some fetched) := by
  have hfd := find_eq_dfs_head data "pageInfo"
  refine ⟨hfd, ?_, ?_⟩
  · unfold nodesLocate
    rw [hfd]
    cases hdfs : dictsWithKey data "pageInfo" with
    | nil => simp
    | cons x xs => simp
  · intro fetched hok
    unfold nodesLocate at hok
    rw [hfd] at hok
    cases hdfs : dictsWithKey data "pageInfo" with
    | nil => rw [hdfs] at hok; simp at hok
    | cons x xs =>
      rw [hdfs] at hok
      simp at hok
      simp [hok]

/-- C6 counterexample: a response whose only `pageInfo`-bearing dict sits
inside an array.  It exists "anywhere in the response tree" in the claim's
sense, yet `find_dict_with_key` (which descends only into dict values)
misses it, and `nodes()` raises the no-container error. -/
theorem nodes_locate_counterexample :
    hasDictWithKeyAnywhere
        (JValue.obj [("data", JValue.arr [JValue.obj [("pageInfo", JValue.prim "pi")]])])
        "pageInfo" = true
    ∧ nodesLocate [("data", JValue.arr [JValue.obj [("pageInfo", JValue.prim "pi")]])]
        = Except.error "Query returned no data, you may need more permissions in your token" := by
  constructor
  · rfl
  · simp [nodesLocate, find_dict_with_key, findInValues, hasKey]

/-! ## Claim C7: cutoff parsing in the digest orchestrator -/

/-- C7: evaluation of the cutoff handling at concrete inputs.
`make_digest` maps `"forever"` to the fixed 1980-01-01 date and a relative
duration to now-minus-delta, but it computes
`datetime.datetime.now() - parse_timedelta(since)` directly (digest.py
line 502) instead of using `helpers.parse_since`: for the absolute
timestamp `"2023-07-30"`, `parse_timedelta` returns `None` and the
subtraction raises an uncaught `TypeError` (modelled `none`), whereas
`parse_since` — whose docstring and tests promise exactly the claimed
behavior — accepts the timestamp as-is and reports unparsable values in a
`DinghyError`. -/
theorem make_digest_since_absolute_bug :
    makeDigestSinceDate "forever" = some SinceDate.farPast
    ∧ parse_timedelta "2 weeks" = some (TdMatch.mk (some "2") none none none none)
    ∧ makeDigestSinceDate "2 weeks"
        = some (SinceDate.nowMinus (TdMatch.mk (some "2") none none none none))
    ∧ parse_timedelta "2023-07-30" = none
    ∧ makeDigestSinceDate "2023-07-30" = none
    ∧ parse_since "2023-07-30" = Except.ok (SinceDate.absolute (IsoDate.mk 2023 7 30))
    ∧ parse_since "not-a-date!" = Except.error "Cannot parse since value: not-a-date!" :=
  ⟨rfl, rfl, rfl, rfl, rfl, rfl, rfl⟩

/-! ## Claim C9: ghost normalization -/

/-- C9: for any raw node whose author is null, ghost normalization
rewrites the author to the synthetic user `{"__typename": "User",
"login": "ghost"}`; that author always passes the author-kind check of the
interest filter (`"User"` is always in `user_types`), and — for a node
inside the recency window — the node is excluded by the filter exactly
when the sentinel login `"ghost"` is in the run's ignore-list. -/
theorem ghost_normalization (cfg : Config) (d : RawData) (ch : List RawNode)
    (hnull : d.author = none) :
    (fix_ghosts (RawNode.mk d ch)).data.author = Author.mk "User" "ghost"
    ∧ (cfg.user_types.contains (fix_ghosts (RawNode.mk d ch)).data.author.typename) = true
    ∧ (cfg.since < d.updatedAt →
        (node_is_interesting cfg (fix_ghosts (RawNode.mk d ch)).data = true
          ↔ cfg.ignore_users.contains "ghost" = false)) := by
  have hfix : (fix_ghosts (RawNode.mk d ch)).data.author = Author.mk "User" "ghost" := by
    rw [fix_ghosts]
    simp [Node.data, fixAuthor, hnull]
  have hupd : (fix_ghosts (RawNode.mk d ch)).data.updatedAt = d.updatedAt := by
    rw [fix_ghosts]
    rfl
  refine ⟨hfix, ?_, ?_⟩
  · rw [hfix]
    simp [Config.user_types]
  · intro hrecent
    unfold node_is_interesting
    rw [hfix, hupd]
    have hdec : decide (cfg.since < d.updatedAt) = true := decide_eq_true hrecent
    rw [hdec]
    simp [Config.user_types]

/-- The configuration of the C9 witness: bots excluded, one ignored user,
cutoff 2024-01-01. -/
def ghostCfg : Config := Config.mk "2024-01-01T00:00:00" ["spammy"] false

/-- A raw comment by a deleted account (null author). -/
def ghostRaw : RawData :=
  RawData.mk "c9" "some text" "" none "2024-02-02T00:00:00" none none none false

/-- Witness for `ghost_normalization` at a concrete null-author node. -/
theorem ghost_normalization_witness :
    ghostRaw.author = none
    ∧ ((fix_ghosts (RawNode.mk ghostRaw [])).data.author = Author.mk "User" "ghost"
      ∧ (ghostCfg.user_types.contains
          (fix_ghosts (RawNode.mk ghostRaw [])).data.author.typename) = true
      ∧ (ghostCfg.since < ghostRaw.updatedAt →
          (node_is_interesting ghostCfg (fix_ghosts (RawNode.mk ghostRaw [])).data = true
            ↔ ghostCfg.ignore_users.contains "ghost" = false))) :=
  ⟨rfl, ghost_normalization ghostCfg ghostRaw [] rfl⟩

end Dinghy

namespace Dinghy

/-! ## Claim C3: recursive pruning -/

mutual

theorem trimNode_isSome (cfg : Config) (n : Node) :
    (trimNode cfg n).isSome = subtreeInteresting cfg n := by
  match n with
  | Node.mk d ch =>
    have hk := trimKeep_flag cfg ch
    simp only [trimNode, subtreeInteresting]
    rw [← hk]
    cases hcond : (node_is_interesting cfg d || (trimKeep cfg ch).2) with
    | false => simp [hcond]
    | true => simp [hcond]

theorem trimKeep_flag (cfg : Config) (ns : List Node) :
    (trimKeep cfg ns).2 = subtreeAny cfg ns := by
  match ns with
  | [] =>
    simp only [trimKeep, subtreeAny]
  | n :: rest =>
    have hn := trimNode_isSome cfg n
    have hr := trimKeep_flag cfg rest
    simp only [trimKeep, subtreeAny]
    cases ht : trimNode cfg n with
    | some n2 =>
      rw [ht] at hn
      simp only [Option.isSome_some] at hn
      simp [← hn]
    | none =>
      rw [ht] at hn
      simp only [Option.isSome_none] at hn
      simp [← hn, hr]

end

instance : IsTotal Node (fun a b => a.data.updatedAt ≤ b.data.updatedAt) :=
  ⟨fun _ _ => le_total _ _⟩

instance : IsTrans Node (fun a b => a.data.updatedAt ≤ b.data.updatedAt) :=
  ⟨fun _ _ _ => le_trans⟩

theorem sortedByUpdated_of_sorted {l : List Node}
    (h : List.Sorted (fun a b : Node => a.data.updatedAt ≤ b.data.updatedAt) l) :
    sortedByUpdated l = true := by
  induction h with
  | nil => rfl
  | @cons a rest h1 h2 ih =>
    cases rest with
    | nil => rfl
    | cons b rest2 =>
      rw [sortedByUpdated]
      rw [decide_eq_true (h1 b (by simp)), ih]
      rfl

theorem sortNodes_sorted (ns : List Node) : sortedByUpdated (sortNodes ns) = true :=
  sortedByUpdated_of_sorted (List.sorted_insertionSort _ ns)

theorem sortNodes_perm (ns : List Node) : (sortNodes ns).Perm ns :=
  List.perm_insertionSort _ ns

theorem all_congr_perm {l l' : List Node} (h : l.Perm l') (p : Node → Bool) :
    l.all p = l'.all p := by
  have hiff : (l.all p = true) ↔ (l'.all p = true) := by
    simp only [List.all_eq_true]
    exact ⟨fun hh x hx => hh x (h.mem_iff.mpr hx), fun hh x hx => hh x (h.mem_iff.mp hx)⟩
  cases hl : l.all p with
  | false =>
    cases hl2 : l'.all p with
    | false => rfl
    | true => rw [hl] at hiff; rw [hl2] at hiff; simpa using hiff.mpr rfl
  | true =>
    rw [hl] at hiff
    exact (hiff.mp rfl).symm

theorem childLevelsSorted_cons (n : Node) (l : List Node) :
    childLevelsSorted (n :: l) = (allLevelsSorted n.children && childLevelsSorted l) := by
  match n with
  | Node.mk d ch =>
    rw [childLevelsSorted]
    rfl

theorem childLevelsSorted_eq_all (ns : List Node) :
    childLevelsSorted ns = ns.all (fun n => allLevelsSorted n.children) := by
  induction ns with
  | nil => simp only [childLevelsSorted, List.all_nil]
  | cons n rest ih => rw [childLevelsSorted_cons, ih, List.all_cons]

theorem boringMatches_cons (cfg : Config) (n : Node) (l : List Node) :
    boringMatches cfg (n :: l)
      = (((n.data.boring == !node_is_interesting cfg n.data)
          && boringMatches cfg n.children) && boringMatches cfg l) := by
  match n with
  | Node.mk d ch =>
    rw [boringMatches]
    simp [Node.data, Node.children, Bool.and_assoc]

theorem boringMatches_eq_all (cfg : Config) (ns : List Node) :
    boringMatches cfg ns
      = ns.all (fun n => (n.data.boring == !node_is_interesting cfg n.data)
          && boringMatches cfg n.children) := by
  induction ns with
  | nil => simp only [boringMatches, List.all_nil]
  | cons n rest ih => rw [boringMatches_cons, ih, List.all_cons]

theorem interesting_setBoring (cfg : Config) (d : NodeData) (b : Bool) :
    node_is_interesting cfg (d.setBoring b) = node_is_interesting cfg d := rfl

theorem boring_flag_ok (cfg : Config) (d : NodeData) (hbd : d.boring = false) :
    (((if node_is_interesting cfg d = true then d else d.setBoring true).boring
      == !node_is_interesting cfg
          (if node_is_interesting cfg d = true then d else d.setBoring true))) = true := by
  by_cases hint : node_is_interesting cfg d = true
  · rw [if_pos hint, hbd, hint]
    rfl
  · have hintf : node_is_interesting cfg d = false := Bool.eq_false_iff.mpr hint
    rw [if_neg hint, interesting_setBoring, hintf]
    rfl

mutual

theorem trimNode_ok (cfg : Config) (n : Node) (hb : boringFree n = true) :
    ∀ n2, trimNode cfg n = some n2 →
      ((n2.data.boring == !node_is_interesting cfg n2.data) = true
        ∧ boringMatches cfg n2.children = true
        ∧ allLevelsSorted n2.children = true) := by
  match n with
  | Node.mk d ch =>
    intro n2 h2
    have hb2 : d.boring = false ∧ boringFreeList ch = true := by
      rw [boringFree] at hb
      simpa using hb
    have hbd := hb2.1
    have hbl := hb2.2
    have hkeep := trimKeep_ok cfg ch hbl
    simp only [trimNode] at h2
    by_cases hcond : (node_is_interesting cfg d || (trimKeep cfg ch).2) = true
    · rw [if_pos hcond] at h2
      injection h2 with h2e
      subst h2e
      refine ⟨?_, ?_, ?_⟩
      · rw [Node.data]
        exact boring_flag_ok cfg d hbd
      · rw [Node.children]
        rw [boringMatches_eq_all] at hkeep ⊢
        rw [all_congr_perm (sortNodes_perm (trimKeep cfg ch).1)]
        exact hkeep.1
      · rw [Node.children, allLevelsSorted]
        rw [sortNodes_sorted, childLevelsSorted_eq_all,
          all_congr_perm (sortNodes_perm (trimKeep cfg ch).1),
          ← childLevelsSorted_eq_all, hkeep.2]
        rfl
    · rw [if_neg hcond] at h2
      cases h2

theorem trimKeep_ok (cfg : Config) (ns : List Node) (hb : boringFreeList ns = true) :
    boringMatches cfg (trimKeep cfg ns).1 = true
    ∧ childLevelsSorted (trimKeep cfg ns).1 = true := by
  match ns with
  | [] =>
    simp only [trimKeep]
    exact ⟨by simp only [boringMatches], by simp only [childLevelsSorted]⟩
  | n :: rest =>
    have hb2 : boringFree n = true ∧ boringFreeList rest = true := by
      rw [boringFreeList] at hb
      simpa using hb
    have hrest := trimKeep_ok cfg rest hb2.2
    simp only [trimKeep]
    cases ht : trimNode cfg n with
    | none => exact hrest
    | some n2 =>
      have hn2 := trimNode_ok cfg n hb2.1 n2 ht
      constructor
      · rw [boringMatches_cons]
        simp [hn2.1, hn2.2.1, hrest.1]
      · rw [childLevelsSorted_cons]
        simp [hn2.2.2, hrest.2]

end

/-- C3: for every forest with no pre-set `boring` flags,
(1) a node is kept by the trim exactly when it is itself interesting or
some descendant is, and a kept node consists of its data — `boring` set
exactly when the node is not itself interesting — together with the
recursively pruned (hence recursively characterized) children;
(2) the any-interesting flag agrees with the spec predicate;
(3) every node of the output forest, at every level, carries `boring`
exactly when it is not interesting; and
(4) every level of the output forest is sorted ascending by `updatedAt`. -/
theorem trim_tree_prunes_correctly (cfg : Config) (ns : List Node)
    (hb : boringFreeList ns = true) :
    (∀ d ch, trimNode cfg (Node.mk d ch)
        = (if subtreeInteresting cfg (Node.mk d ch) = true then
            some (Node.mk (if node_is_interesting cfg d = true then d else d.setBoring true)
              (trim_unwanted_tree cfg ch).1)
           else none))
    ∧ ((trim_unwanted_tree cfg ns).2 = subtreeAny cfg ns)
    ∧ boringMatches cfg (trim_unwanted_tree cfg ns).1 = true
    ∧ allLevelsSorted (trim_unwanted_tree cfg ns).1 = true := by
  have hkeep := trimKeep_ok cfg ns hb
  refine ⟨?_, ?_, ?_, ?_⟩
  · intro d ch
    simp only [trimNode, trim_unwanted_tree, subtreeInteresting]
    rw [trimKeep_flag cfg ch]
  · simp only [trim_unwanted_tree]
    exact trimKeep_flag cfg ns
  · simp only [trim_unwanted_tree]
    rw [boringMatches_eq_all] at hkeep ⊢
    rw [all_congr_perm (sortNodes_perm (trimKeep cfg ns).1)]
    exact hkeep.1
  · simp only [trim_unwanted_tree, allLevelsSorted]
    rw [sortNodes_sorted, childLevelsSorted_eq_all,
      all_congr_perm (sortNodes_perm (trimKeep cfg ns).1),
      ← childLevelsSorted_eq_all, hkeep.2]
    rfl

end Dinghy

namespace Dinghy

/-- Author of the C3 witness forest. -/
def trimAuthor : Author := Author.mk "User" "carol"

/-- The configuration of the C3 witness: cutoff 2024-01-01. -/
def trimCfg : Config := Config.mk "2024-01-01T00:00:00" [] false

/-- The only interesting node of the C3 witness forest: a deep leaf updated
after the cutoff. -/
def trimLeaf : Node :=
  Node.mk (NodeData.mk "leaf" "recent reply" "" none "2024-06-01T00:00:00" trimAuthor
    none none false) []

/-- The middle node, updated before the cutoff, with the leaf below it. -/
def trimMid : Node :=
  Node.mk (NodeData.mk "mid" "old reply" "" none "2020-01-02T00:00:00" trimAuthor
    none none false) [trimLeaf]

/-- The root node, updated before the cutoff, with the middle node below. -/
def trimRoot : Node :=
  Node.mk (NodeData.mk "root" "old comment" "" none "2020-01-01T00:00:00" trimAuthor
    none none false) [trimMid]

/-- Witness for `trim_tree_prunes_correctly` at the three-level forest in
which only the deepest leaf is interesting. -/
theorem trim_tree_prunes_correctly_witness :
    boringFreeList [trimRoot] = true
    ∧ ((∀ d ch, trimNode trimCfg (Node.mk d ch)
          = (if subtreeInteresting trimCfg (Node.mk d ch) = true then
              some (Node.mk
                (if node_is_interesting trimCfg d = true then d else d.setBoring true)
                (trim_unwanted_tree trimCfg ch).1)
             else none))
      ∧ ((trim_unwanted_tree trimCfg [trimRoot]).2 = subtreeAny trimCfg [trimRoot])
      ∧ boringMatches trimCfg (trim_unwanted_tree trimCfg [trimRoot]).1 = true
      ∧ allLevelsSorted (trim_unwanted_tree trimCfg [trimRoot]).1 = true) :=
  ⟨by simp [boringFreeList, boringFree, trimRoot, trimMid, trimLeaf],
    trim_tree_prunes_correctly trimCfg [trimRoot]
      (by simp [boringFreeList, boringFree, trimRoot, trimMid, trimLeaf])⟩

end Dinghy
